import Mathlib

/-!
# Verification of the VFI AR(1) discretizer (Tauchen's method)

This file gives a shallow embedding, over exact real arithmetic, of the
function `ar1` from `src/Thrust/ar1.cpp`, which discretizes an AR(1)
process into a state grid `Z` and a transition matrix `P` by Tauchen's
(1986) method, and proves the specified properties of its output.

The imperative writes of the C++ function are modelled by `Function.update`
on total maps `ℕ → ℝ` (the caller-supplied containers), and the two nested
loops by left folds over index lists, step by step in source order.  The
C99 `erf` function is modelled by its mathematical definition
`erf x = (2/√π) ∫ t in 0..x, exp (-t²)`, and `pow` by `Real.rpow`.
-/

namespace VFI

/-- The model-parameters record read (and never mutated) by `ar1`:
`nz` discrete states, innovation mean `mu`, persistence `rho`, innovation
standard deviation `sigma`, and grid-width multiplier `lambda`. -/
structure parameters where
  nz : ℕ
  mu : ℝ
  rho : ℝ
  sigma : ℝ
  lambda : ℝ

/-- The mathematical error function, modelling C99 `erf`:
`erf x = (2/√π) ∫ t in 0..x, exp (-t²)`. -/
noncomputable def erf (x : ℝ) : ℝ :=
  2 / Real.sqrt Real.pi * ∫ t in (0:ℝ)..x, Real.exp (-t ^ 2)

/-- Source line `const REAL sigma_z = sigma/pow(1-pow(rho,2),0.5);`
(`pow` modelled by `Real.rpow`). -/
noncomputable def sigma_z (p : parameters) : ℝ :=
  p.sigma / (1 - p.rho ^ (2:ℝ)) ^ ((0.5:ℝ))

/-- Source line `const REAL mu_z = mu/(1-rho);`. -/
noncomputable def mu_z (p : parameters) : ℝ := p.mu / (1 - p.rho)

/-- Source line `const REAL zmin = mu_z - lambda*sigma_z;`. -/
noncomputable def zmin (p : parameters) : ℝ := mu_z p - p.lambda * sigma_z p

/-- Source line `const REAL zmax = mu_z + lambda*sigma_z;`. -/
noncomputable def zmax (p : parameters) : ℝ := mu_z p + p.lambda * sigma_z p

/-- Source line `const REAL zstep = (zmax - zmin)/(nz-1);` (the `int`
subtraction `nz-1` is modelled by subtraction in `ℝ` after the cast). -/
noncomputable def zstep (p : parameters) : ℝ :=
  (zmax p - zmin p) / ((p.nz : ℝ) - 1)

/-- The state of the two output containers during `ar1`: the grid `Z` and
the transition matrix `P`, each a caller-supplied container modelled as a
total map from indices. -/
structure ArState where
  Z : ℕ → ℝ
  P : ℕ → ℝ

/-- The grid loop
`for(int ix = 0 ; ix < nz ; ++ix) Z[ix] = exp(zmin + zstep*ix);`. -/
noncomputable def zLoop (p : parameters) (Z : ℕ → ℝ) : ℕ → ℝ :=
  (List.range p.nz).foldl
    (fun Z ix => Function.update Z ix (Real.exp (zmin p + zstep p * (ix:ℝ)))) Z

/-- The first two statements of the transition-matrix row body for origin
state `ix`:
`normarg1 = (zmin - mu - rho*log(Z[ix]))/sigma + 0.5*zstep/sigma;`
`P[ix] = 0.5 + 0.5*erf(normarg1/sqrt(2));`
`P[ix+nz*(nz-1)] = 1 - P[ix];`. -/
noncomputable def rowInit (p : parameters) (ix : ℕ) (s : ArState) : ArState :=
  let normarg1 :=
    (zmin p - p.mu - p.rho * Real.log (s.Z ix)) / p.sigma
      + 0.5 * zstep p / p.sigma
  let P1 := Function.update s.P ix (0.5 + 0.5 * erf (normarg1 / Real.sqrt 2))
  let P2 := Function.update P1 (ix + p.nz * (p.nz - 1)) (1 - P1 ix)
  ⟨s.Z, P2⟩

/-- One iteration of the interior-bin loop body for origin `ix` and
destination `jx`:
`normarg1 = (log(Z[jx]) - mu - rho*log(Z[ix]))/sigma + 0.5*zstep/sigma;`
`normarg2 = (log(Z[jx]) - mu - rho*log(Z[ix]))/sigma - 0.5*zstep/sigma;`
`P[ix+nz*jx] = 0.5*erf(normarg1/sqrt(2)) - 0.5*erf(normarg2/sqrt(2));`
`P[ix+nz*(nz-1)] -= P[ix+nz*jx];`. -/
noncomputable def innerStep (p : parameters) (ix : ℕ) (s : ArState) (jx : ℕ) :
    ArState :=
  let normarg1 :=
    (Real.log (s.Z jx) - p.mu - p.rho * Real.log (s.Z ix)) / p.sigma
      + 0.5 * zstep p / p.sigma
  let normarg2 :=
    (Real.log (s.Z jx) - p.mu - p.rho * Real.log (s.Z ix)) / p.sigma
      - 0.5 * zstep p / p.sigma
  let P1 := Function.update s.P (ix + p.nz * jx)
    (0.5 * erf (normarg1 / Real.sqrt 2) - 0.5 * erf (normarg2 / Real.sqrt 2))
  let P2 := Function.update P1 (ix + p.nz * (p.nz - 1))
    (P1 (ix + p.nz * (p.nz - 1)) - P1 (ix + p.nz * jx))
  ⟨s.Z, P2⟩

/-- The full row body for origin state `ix`: the bottom-bin and top-bin
statements followed by the interior loop `for(int jx = 1 ; jx < (nz-1) ; ++jx)`
(which runs over `jx = 1, …, nz-2`). -/
noncomputable def rowBody (p : parameters) (s : ArState) (ix : ℕ) : ArState :=
  ((List.range (p.nz - 2)).map (· + 1)).foldl (innerStep p ix) (rowInit p ix s)

/-- The function `ar1` of `src/Thrust/ar1.cpp`: given the parameters and the
caller-supplied containers `Z0` and `P0`, it runs the grid loop and the
transition-matrix double loop and returns the final contents of the two
containers.  The parameters record is taken immutably, exactly as the
C++ `const parameters&` argument. -/
noncomputable def ar1 (p : parameters) (Z0 P0 : ℕ → ℝ) : (ℕ → ℝ) × (ℕ → ℝ) :=
  let Z1 := zLoop p Z0
  let s := (List.range p.nz).foldl (rowBody p) ⟨Z1, P0⟩
  (s.Z, s.P)

/-! ## Closed forms for the produced values -/

/-- Closed form for the grid value written at index `i`. -/
noncomputable def Zval (p : parameters) (i : ℕ) : ℝ :=
  Real.exp (zmin p + zstep p * (i:ℝ))

/-- The standard normal CDF by the error-function identity
`Φ(x) = 0.5 + 0.5 erf (x/√2)` used throughout the source. -/
noncomputable def normcdf (x : ℝ) : ℝ := 0.5 + 0.5 * erf (x / Real.sqrt 2)

/-- Upper bin-edge CDF argument for origin `i`, destination `j`
(`log Z[j] = zmin + zstep*j` after the grid loop). -/
noncomputable def upArg (p : parameters) (i j : ℕ) : ℝ :=
  ((zmin p + zstep p * (j:ℝ)) - p.mu - p.rho * (zmin p + zstep p * (i:ℝ)))
      / p.sigma
    + 0.5 * zstep p / p.sigma

/-- Lower bin-edge CDF argument for origin `i`, destination `j`. -/
noncomputable def loArg (p : parameters) (i j : ℕ) : ℝ :=
  ((zmin p + zstep p * (j:ℝ)) - p.mu - p.rho * (zmin p + zstep p * (i:ℝ)))
      / p.sigma
    - 0.5 * zstep p / p.sigma

/-- Closed form of an interior transition-matrix entry. -/
noncomputable def pint (p : parameters) (i j : ℕ) : ℝ :=
  normcdf (upArg p i j) - normcdf (loArg p i j)

/-- Closed form of the final transition-matrix entry for origin `i` and
destination `j` (bottom bin, residual top bin, or interior bin). -/
noncomputable def Pentry (p : parameters) (i j : ℕ) : ℝ :=
  if j = 0 then normcdf (upArg p i 0)
  else if j = p.nz - 1 then
    1 - normcdf (upArg p i 0) - ∑ k ∈ Finset.range (p.nz - 2), pint p i (k + 1)
  else pint p i j

/-- Modelled from the spec (§5, design choice (a)): the per-entry map of the
parallel reformulation, which computes the bottom bin and every interior
entry independently via the CDF-difference formula directly, with no
running subtraction. -/
noncomputable def parEntry (p : parameters) (i j : ℕ) : ℝ :=
  if j = 0 then normcdf (upArg p i 0)
  else normcdf (upArg p i j) - normcdf (loArg p i j)

/-- Modelled from the spec (§5, design choice (a)): the parallel
reformulation of the transition matrix, deriving the top bin as
`1 - sum(P[i,0..nz-2])` by a per-row reduction. -/
noncomputable def parMatrix (p : parameters) (i j : ℕ) : ℝ :=
  if j = p.nz - 1 then 1 - ∑ k ∈ Finset.range (p.nz - 1), parEntry p i k
  else parEntry p i j

/-- The spec's concrete valid scenario `nz=3, mu=0, rho=0, sigma=1, lambda=3`,
used to instantiate the theorems below at a concrete input. -/
noncomputable def p₀ : parameters := ⟨3, 0, 0, 1, 3⟩

/-- A concrete zero-filled caller-supplied container. -/
def z₀ : ℕ → ℝ := fun _ => 0

/-! ## Index bookkeeping -/

theorem add_mul_left_inj {n i j j' : ℕ} (hn : 0 < n) :
    i + n * j = i + n * j' ↔ j = j' := by
  constructor
  · intro h
    exact Nat.eq_of_mul_eq_mul_left hn (Nat.add_left_cancel h)
  · intro h
    rw [h]

theorem index_inj {n i i' j j' : ℕ} (hi : i < n) (hi' : i' < n)
    (h : i + n * j = i' + n * j') : i = i' ∧ j = j' := by
  have h1 : (i + n * j) % n = (i' + n * j') % n := by rw [h]
  rw [Nat.add_mul_mod_self_left, Nat.add_mul_mod_self_left,
    Nat.mod_eq_of_lt hi, Nat.mod_eq_of_lt hi'] at h1
  subst h1
  exact ⟨rfl, (add_mul_left_inj ((Nat.zero_le i).trans_lt hi)).mp h⟩

/-! ## Characterization of the grid loop -/

theorem zfold_apply (p : parameters) (Z0 : ℕ → ℝ) (n k : ℕ) :
    ((List.range n).foldl
      (fun (Z : ℕ → ℝ) (ix : ℕ) =>
        Function.update Z ix (Real.exp (zmin p + zstep p * (ix:ℝ)))) Z0) k
      = if k < n then Zval p k else Z0 k := by
  induction n generalizing Z0 with
  | zero => simp
  | succ n ih =>
    rw [List.range_succ, List.foldl_append, List.foldl_cons, List.foldl_nil,
      Function.update_apply, ih]
    rcases eq_or_ne k n with rfl | hk
    · simp [Zval]
    · rw [if_neg hk]
      by_cases hlt : k < n
      · rw [if_pos hlt, if_pos (by omega)]
      · rw [if_neg hlt, if_neg (by omega)]

theorem zLoop_apply (p : parameters) (Z0 : ℕ → ℝ) (k : ℕ) :
    zLoop p Z0 k = if k < p.nz then Zval p k else Z0 k :=
  zfold_apply p Z0 p.nz k

/-! ## Characterization of one interior-loop iteration -/

theorem innerStep_Z (p : parameters) (ix : ℕ) (s : ArState) (jx : ℕ) :
    (innerStep p ix s jx).Z = s.Z := rfl

theorem innerStep_P_frame (p : parameters) (ix jx : ℕ) (s : ArState) (k : ℕ)
    (h1 : k ≠ ix + p.nz * jx) (h2 : k ≠ ix + p.nz * (p.nz - 1)) :
    (innerStep p ix s jx).P k = s.P k := by
  simp only [innerStep, Function.update_apply, if_neg h1, if_neg h2]

theorem innerStep_P_entry (p : parameters) (ix jx : ℕ) (s : ArState)
    (hZi : s.Z ix = Zval p ix) (hZj : s.Z jx = Zval p jx)
    (hjx : jx ≠ p.nz - 1) (hnz : 0 < p.nz) :
    (innerStep p ix s jx).P (ix + p.nz * jx) = pint p ix jx := by
  have hne : ix + p.nz * jx ≠ ix + p.nz * (p.nz - 1) := fun h =>
    hjx ((add_mul_left_inj hnz).mp h)
  simp only [innerStep, Function.update_apply, if_neg hne, if_pos rfl, if_true]
  rw [hZi, hZj, Zval, Zval, Real.log_exp, Real.log_exp]
  unfold pint normcdf upArg loArg
  ring

theorem innerStep_P_top (p : parameters) (ix jx : ℕ) (s : ArState)
    (hZi : s.Z ix = Zval p ix) (hZj : s.Z jx = Zval p jx)
    (hjx : jx ≠ p.nz - 1) (hnz : 0 < p.nz) :
    (innerStep p ix s jx).P (ix + p.nz * (p.nz - 1))
      = s.P (ix + p.nz * (p.nz - 1)) - pint p ix jx := by
  have hne : ix + p.nz * (p.nz - 1) ≠ ix + p.nz * jx := fun h =>
    hjx ((add_mul_left_inj hnz).mp h).symm
  simp only [innerStep, Function.update_apply, if_pos rfl, if_neg hne, if_true]
  rw [hZi, hZj, Zval, Zval, Real.log_exp, Real.log_exp]
  unfold pint normcdf upArg loArg
  ring

/-! ## Characterization of the interior-loop fold -/

theorem innerFold_Z (p : parameters) (ix : ℕ) (L : List ℕ) (s : ArState) :
    (L.foldl (innerStep p ix) s).Z = s.Z := by
  induction L generalizing s with
  | nil => rfl
  | cons a L ih => rw [List.foldl_cons, ih, innerStep_Z]

theorem innerFold_P_frame (p : parameters) (ix : ℕ) (L : List ℕ) (s : ArState)
    (k : ℕ) (hk1 : ∀ j ∈ L, k ≠ ix + p.nz * j)
    (hk2 : k ≠ ix + p.nz * (p.nz - 1)) :
    (L.foldl (innerStep p ix) s).P k = s.P k := by
  revert hk1
  induction L generalizing s with
  | nil => intro _; rfl
  | cons a L ih =>
    intro hk1
    rw [List.foldl_cons,
      ih (innerStep p ix s a) (fun j hj => hk1 j (List.mem_cons_of_mem a hj)),
      innerStep_P_frame p ix a s k (hk1 a (List.mem_cons_self a L)) hk2]

theorem innerFold_P_top (p : parameters) (ix : ℕ) (hnz : 0 < p.nz)
    (hix : ix < p.nz) (L : List ℕ) (s : ArState)
    (hZ : ∀ m, m < p.nz → s.Z m = Zval p m)
    (hL : ∀ j ∈ L, j < p.nz - 1) :
    (L.foldl (innerStep p ix) s).P (ix + p.nz * (p.nz - 1))
      = s.P (ix + p.nz * (p.nz - 1)) - (L.map (pint p ix)).sum := by
  revert hZ hL
  induction L generalizing s with
  | nil => intro _ _; simp
  | cons a L ih =>
    intro hZ hL
    have ha : a < p.nz - 1 := hL a (List.mem_cons_self a L)
    rw [List.foldl_cons,
      ih (innerStep p ix s a)
        (fun m hm => by rw [innerStep_Z]; exact hZ m hm)
        (fun j hj => hL j (List.mem_cons_of_mem a hj)),
      innerStep_P_top p ix a s (hZ ix hix) (hZ a (by omega)) (by omega) hnz]
    simp only [List.map_cons, List.sum_cons]
    ring

theorem innerFold_P_entry (p : parameters) (ix : ℕ) (hnz : 0 < p.nz)
    (hix : ix < p.nz) (L : List ℕ) (s : ArState)
    (hZ : ∀ m, m < p.nz → s.Z m = Zval p m)
    (hL : ∀ j ∈ L, j < p.nz - 1) (j : ℕ) (hj : j ∈ L) :
    (L.foldl (innerStep p ix) s).P (ix + p.nz * j) = pint p ix j := by
  revert hZ hL hj
  induction L generalizing s with
  | nil => intro _ _ h; exact absurd h (List.not_mem_nil j)
  | cons a L ih =>
    intro hZ hL hj
    rw [List.foldl_cons]
    by_cases hjL : j ∈ L
    · exact ih (innerStep p ix s a)
        (fun m hm => by rw [innerStep_Z]; exact hZ m hm)
        (fun j' hj' => hL j' (List.mem_cons_of_mem a hj')) hjL
    · have hja : j = a := by
        rcases List.mem_cons.mp hj with h | h
        · exact h
        · exact absurd h hjL
      subst hja
      have hlt : j < p.nz - 1 := hL j (List.mem_cons_self j L)
      rw [innerFold_P_frame p ix L (innerStep p ix s j) (ix + p.nz * j)
          (fun j' hj' he => hjL (((add_mul_left_inj hnz).mp he) ▸ hj'))
          (fun he => absurd ((add_mul_left_inj hnz).mp he) (by omega))]
      exact innerStep_P_entry p ix j s (hZ ix hix) (hZ j (by omega)) (by omega) hnz

/-! ## Characterization of the row prologue -/

theorem rowInit_Z (p : parameters) (ix : ℕ) (s : ArState) :
    (rowInit p ix s).Z = s.Z := rfl

theorem rowInit_P_frame (p : parameters) (ix : ℕ) (s : ArState) (k : ℕ)
    (h1 : k ≠ ix) (h2 : k ≠ ix + p.nz * (p.nz - 1)) :
    (rowInit p ix s).P k = s.P k := by
  simp only [rowInit, Function.update_apply, if_neg h1, if_neg h2]

theorem rowInit_P_bottom (p : parameters) (ix : ℕ) (s : ArState)
    (hZi : s.Z ix = Zval p ix) (hnz : 2 ≤ p.nz) :
    (rowInit p ix s).P ix = normcdf (upArg p ix 0) := by
  have hne : ix ≠ ix + p.nz * (p.nz - 1) := by
    have : 0 < p.nz * (p.nz - 1) := Nat.mul_pos (by omega) (by omega)
    omega
  simp only [rowInit, Function.update_apply, if_neg hne, if_pos rfl, if_true]
  rw [hZi, Zval, Real.log_exp]
  simp [normcdf, upArg]

theorem rowInit_P_top (p : parameters) (ix : ℕ) (s : ArState)
    (hZi : s.Z ix = Zval p ix) (hnz : 2 ≤ p.nz) :
    (rowInit p ix s).P (ix + p.nz * (p.nz - 1))
      = 1 - normcdf (upArg p ix 0) := by
  have hne : ix ≠ ix + p.nz * (p.nz - 1) := by
    have : 0 < p.nz * (p.nz - 1) := Nat.mul_pos (by omega) (by omega)
    omega
  simp only [rowInit, Function.update_apply, if_pos rfl, if_neg hne, if_true]
  rw [hZi, Zval, Real.log_exp]
  simp [normcdf, upArg]

theorem rowInit_top_complement (p : parameters) (ix : ℕ) (s : ArState)
    (hnz : 2 ≤ p.nz) :
    (rowInit p ix s).P (ix + p.nz * (p.nz - 1))
      = 1 - (rowInit p ix s).P (ix + p.nz * 0) := by
  have hne : ix + p.nz * 0 ≠ ix + p.nz * (p.nz - 1) := fun h => by
    have := (add_mul_left_inj (n := p.nz) (by omega)).mp h
    omega
  have hix : ix + p.nz * 0 = ix := by omega
  rw [hix]
  have hne' : ix ≠ ix + p.nz * (p.nz - 1) := hix ▸ hne
  simp only [rowInit, Function.update_apply, if_pos rfl, if_neg hne', if_true]

/-! ## Characterization of the full row body -/

theorem list_sum_range_map (f : ℕ → ℝ) (n : ℕ) :
    ((List.range n).map f).sum = ∑ k ∈ Finset.range n, f k := by
  induction n with
  | zero => simp
  | succ n ih =>
    rw [List.range_succ, List.map_append, List.sum_append,
      Finset.sum_range_succ, ih]
    simp

theorem rowBody_Z (p : parameters) (s : ArState) (ix : ℕ) :
    (rowBody p s ix).Z = s.Z := by
  rw [rowBody, innerFold_Z, rowInit_Z]

theorem innerList_mem (p : parameters) (j : ℕ) :
    j ∈ (List.range (p.nz - 2)).map (· + 1) ↔ 1 ≤ j ∧ j < p.nz - 1 := by
  simp only [List.mem_map, List.mem_range]
  constructor
  · rintro ⟨k, hk, rfl⟩
    omega
  · intro h
    exact ⟨j - 1, by omega, by omega⟩

theorem rowBody_P (p : parameters) (s : ArState) (ix : ℕ)
    (hZ : ∀ m, m < p.nz → s.Z m = Zval p m) (hix : ix < p.nz)
    (hnz : 2 ≤ p.nz) (j : ℕ) (hj : j < p.nz) :
    (rowBody p s ix).P (ix + p.nz * j) = Pentry p ix j := by
  rw [rowBody]
  have hL : ∀ j' ∈ (List.range (p.nz - 2)).map (· + 1), j' < p.nz - 1 :=
    fun j' h => ((innerList_mem p j').mp h).2
  have hZ1 : ∀ m, m < p.nz → (rowInit p ix s).Z m = Zval p m := by
    intro m hm
    rw [rowInit_Z]
    exact hZ m hm
  rcases Nat.eq_zero_or_pos j with rfl | hjpos
  · rw [innerFold_P_frame p ix _ _ _
        (fun j' hj' he => by
          have := (add_mul_left_inj (n := p.nz) (by omega)).mp he
          have := ((innerList_mem p j').mp hj').1
          omega)
        (fun he => by
          have := (add_mul_left_inj (n := p.nz) (by omega)).mp he
          omega)]
    have hix0 : ix + p.nz * 0 = ix := by omega
    rw [hix0, rowInit_P_bottom p ix s (hZ ix hix) hnz]
    simp [Pentry]
  · rcases eq_or_ne j (p.nz - 1) with rfl | hjne
    · rw [innerFold_P_top p ix (by omega) hix _ _ hZ1 hL,
        rowInit_P_top p ix s (hZ ix hix) hnz]
      rw [List.map_map, list_sum_range_map]
      rw [Pentry, if_neg (by omega), if_pos rfl]
      simp [Function.comp]
    · have hjL : j ∈ (List.range (p.nz - 2)).map (· + 1) :=
        (innerList_mem p j).mpr ⟨hjpos, by omega⟩
      rw [innerFold_P_entry p ix (by omega) hix _ _ hZ1 hL j hjL]
      rw [Pentry, if_neg (by omega), if_neg hjne]

theorem rowBody_P_frame (p : parameters) (s : ArState) (ix : ℕ)
    (hix : ix < p.nz) (k : ℕ)
    (h : ∀ j', j' < p.nz → k ≠ ix + p.nz * j') :
    (rowBody p s ix).P k = s.P k := by
  rw [rowBody]
  rw [innerFold_P_frame p ix _ _ _
      (fun j' hj' => h j' (by have := ((innerList_mem p j').mp hj').2; omega))
      (h (p.nz - 1) (by omega))]
  exact rowInit_P_frame p ix s k
    (by have := h 0 (by omega); omega) (h (p.nz - 1) (by omega))

/-! ## Characterization of the outer row loop and of ar1 -/

theorem rowsFold_Z (p : parameters) (s : ArState) (m : ℕ) :
    ((List.range m).foldl (rowBody p) s).Z = s.Z := by
  induction m with
  | zero => rfl
  | succ m ih =>
    rw [List.range_succ, List.foldl_append, List.foldl_cons, List.foldl_nil,
      rowBody_Z, ih]

theorem rowsFold_P (p : parameters) (hnz : 2 ≤ p.nz) (Z1 P0 : ℕ → ℝ)
    (hZ1 : ∀ q, q < p.nz → Z1 q = Zval p q)
    (m : ℕ) (hm : m ≤ p.nz) (i j : ℕ) (hi : i < p.nz) (hj : j < p.nz) :
    ((List.range m).foldl (rowBody p) ⟨Z1, P0⟩).P (i + p.nz * j)
      = if i < m then Pentry p i j else P0 (i + p.nz * j) := by
  induction m with
  | zero => simp
  | succ m ih =>
    rw [List.range_succ, List.foldl_append, List.foldl_cons, List.foldl_nil]
    have hZm : ∀ q, q < p.nz →
        ((List.range m).foldl (rowBody p) ⟨Z1, P0⟩).Z q = Zval p q := by
      intro q hq
      rw [rowsFold_Z]
      exact hZ1 q hq
    rcases eq_or_ne i m with rfl | him
    · rw [rowBody_P p _ i hZm hi hnz j hj, if_pos (by omega)]
    · rw [rowBody_P_frame p _ m (by omega) _
          (fun j' hj' he => him (index_inj hi (by omega) he).1),
        ih (by omega)]
      by_cases hlt : i < m
      · rw [if_pos hlt, if_pos (by omega)]
      · rw [if_neg hlt, if_neg (by omega)]

theorem rowsFold_P_frame (p : parameters) (s : ArState) (m : ℕ) (hm : m ≤ p.nz)
    (k : ℕ) (h : ∀ i' j', i' < p.nz → j' < p.nz → k ≠ i' + p.nz * j') :
    ((List.range m).foldl (rowBody p) s).P k = s.P k := by
  induction m with
  | zero => rfl
  | succ m ih =>
    rw [List.range_succ, List.foldl_append, List.foldl_cons, List.foldl_nil,
      rowBody_P_frame p _ m (by omega) k (fun j' hj' => h m j' (by omega) hj'),
      ih (by omega)]

theorem ar1_Z_apply (p : parameters) (Z0 P0 : ℕ → ℝ) (k : ℕ) :
    (ar1 p Z0 P0).1 k = if k < p.nz then Zval p k else Z0 k := by
  show ((List.range p.nz).foldl (rowBody p) ⟨zLoop p Z0, P0⟩).Z k = _
  rw [rowsFold_Z]
  exact zLoop_apply p Z0 k

theorem ar1_P_closed (p : parameters) (Z0 P0 : ℕ → ℝ) (hnz : 2 ≤ p.nz)
    (i j : ℕ) (hi : i < p.nz) (hj : j < p.nz) :
    (ar1 p Z0 P0).2 (i + p.nz * j) = Pentry p i j := by
  show ((List.range p.nz).foldl (rowBody p) ⟨zLoop p Z0, P0⟩).P (i + p.nz * j) = _
  rw [rowsFold_P p hnz (zLoop p Z0) P0
      (fun q hq => by rw [zLoop_apply, if_pos hq]) p.nz le_rfl i j hi hj,
    if_pos hi]

theorem ar1_Z_frame (p : parameters) (Z0 P0 : ℕ → ℝ) (k : ℕ) (hk : p.nz ≤ k) :
    (ar1 p Z0 P0).1 k = Z0 k := by
  rw [ar1_Z_apply, if_neg (by omega)]

theorem ar1_P_frame (p : parameters) (Z0 P0 : ℕ → ℝ) (k : ℕ)
    (hk : p.nz * p.nz ≤ k) :
    (ar1 p Z0 P0).2 k = P0 k := by
  show ((List.range p.nz).foldl (rowBody p) ⟨zLoop p Z0, P0⟩).P k = _
  rw [rowsFold_P_frame p _ p.nz le_rfl k
      (fun i' j' hi' hj' he => by
        subst he
        have : i' + p.nz * j' < p.nz * p.nz := by
          calc i' + p.nz * j' < p.nz + p.nz * j' := by omega
          _ = p.nz * (j' + 1) := by ring
          _ ≤ p.nz * p.nz := Nat.mul_le_mul_left p.nz (by omega)
        omega)]

/-! ## Analytic facts about the error function -/

theorem gauss_continuous : Continuous fun t : ℝ => Real.exp (-t ^ 2) :=
  Real.continuous_exp.comp (continuous_pow 2).neg

theorem gauss_intervalIntegrable (a b : ℝ) :
    IntervalIntegrable (fun t : ℝ => Real.exp (-t ^ 2))
      MeasureTheory.volume a b :=
  gauss_continuous.intervalIntegrable a b

theorem gauss_integral_mono {a b : ℝ} (h : a ≤ b) :
    (∫ t in (0:ℝ)..a, Real.exp (-t ^ 2))
      ≤ ∫ t in (0:ℝ)..b, Real.exp (-t ^ 2) := by
  rw [← intervalIntegral.integral_add_adjacent_intervals
    (gauss_intervalIntegrable 0 a) (gauss_intervalIntegrable a b)]
  have h0 : 0 ≤ ∫ t in a..b, Real.exp (-t ^ 2) :=
    intervalIntegral.integral_nonneg h (fun u _ => (Real.exp_pos _).le)
  linarith

theorem erf_monotone : Monotone erf := by
  intro a b hab
  unfold erf
  have h2 : (0:ℝ) ≤ 2 / Real.sqrt Real.pi := by positivity
  exact mul_le_mul_of_nonneg_left (gauss_integral_mono hab) h2

theorem gauss_integral_le (x : ℝ) :
    (∫ t in (0:ℝ)..x, Real.exp (-t ^ 2)) ≤ Real.sqrt Real.pi / 2 := by
  have hIoi : (∫ t in Set.Ioi (0:ℝ), Real.exp (-t ^ 2))
      = Real.sqrt Real.pi / 2 := by
    have h := integral_gaussian_Ioi 1
    simpa using h
  rcases le_or_lt x 0 with hx | hx
  · have h1 : 0 ≤ ∫ t in x..(0:ℝ), Real.exp (-t ^ 2) :=
      intervalIntegral.integral_nonneg hx (fun u _ => (Real.exp_pos _).le)
    have h2 : (∫ t in (0:ℝ)..x, Real.exp (-t ^ 2))
        = - ∫ t in x..(0:ℝ), Real.exp (-t ^ 2) :=
      intervalIntegral.integral_symm x 0
    have h3 : (0:ℝ) ≤ Real.sqrt Real.pi / 2 := by positivity
    linarith
  · rw [intervalIntegral.integral_of_le hx.le, ← hIoi]
    apply MeasureTheory.setIntegral_mono_set
    · have h := (integrable_exp_neg_mul_sq one_pos).integrableOn
        (s := Set.Ioi (0:ℝ))
      simpa using h
    · exact MeasureTheory.ae_of_all _ (fun t => (Real.exp_pos _).le)
    · exact (Set.Ioc_subset_Ioi_self).eventuallyLE

theorem erf_le_one (x : ℝ) : erf x ≤ 1 := by
  unfold erf
  have hπ : (0:ℝ) < Real.sqrt Real.pi := Real.sqrt_pos.mpr Real.pi_pos
  calc 2 / Real.sqrt Real.pi * ∫ t in (0:ℝ)..x, Real.exp (-t ^ 2)
      ≤ 2 / Real.sqrt Real.pi * (Real.sqrt Real.pi / 2) :=
        mul_le_mul_of_nonneg_left (gauss_integral_le x) (by positivity)
    _ = 1 := by field_simp

theorem erf_neg (x : ℝ) : erf (-x) = - erf x := by
  unfold erf
  have hc := intervalIntegral.integral_comp_neg
    (a := (0:ℝ)) (b := x) (fun t => Real.exp (-t ^ 2))
  simp only [neg_sq, neg_zero] at hc
  have hs : (∫ t in (-x)..(0:ℝ), Real.exp (-t ^ 2))
      = - ∫ t in (0:ℝ)..(-x), Real.exp (-t ^ 2) :=
    intervalIntegral.integral_symm 0 (-x)
  have key : (∫ t in (0:ℝ)..(-x), Real.exp (-t ^ 2))
      = - ∫ t in (0:ℝ)..x, Real.exp (-t ^ 2) := by
    rw [hc, hs]
    ring
  rw [key]
  ring

theorem neg_one_le_erf (x : ℝ) : -1 ≤ erf x := by
  have h := erf_le_one (-x)
  rw [erf_neg] at h
  linarith

theorem normcdf_nonneg (x : ℝ) : 0 ≤ normcdf x := by
  have h := neg_one_le_erf (x / Real.sqrt 2)
  unfold normcdf
  linarith

theorem normcdf_le_one (x : ℝ) : normcdf x ≤ 1 := by
  have h := erf_le_one (x / Real.sqrt 2)
  unfold normcdf
  linarith

theorem normcdf_monotone : Monotone normcdf := by
  intro a b hab
  unfold normcdf
  have hdiv : a / Real.sqrt 2 ≤ b / Real.sqrt 2 := by gcongr
  have h := erf_monotone hdiv
  linarith

theorem normcdf_neg (x : ℝ) : normcdf (-x) = 1 - normcdf x := by
  unfold normcdf
  rw [neg_div, erf_neg]
  ring

/-! ## Arithmetic facts about the grid parameters -/

theorem one_minus_rho_sq_pos {p : parameters} (hρ : |p.rho| < 1) :
    0 < 1 - p.rho ^ 2 := by
  have h := abs_lt.mp hρ
  nlinarith

theorem sigma_z_eq (p : parameters) :
    sigma_z p = p.sigma / Real.sqrt (1 - p.rho ^ 2) := by
  rw [sigma_z, Real.rpow_two,
    show ((0.5:ℝ)) = (1/2:ℝ) by norm_num, ← Real.sqrt_eq_rpow]

theorem sigma_z_pos {p : parameters} (hσ : 0 < p.sigma) (hρ : |p.rho| < 1) :
    0 < sigma_z p := by
  rw [sigma_z_eq]
  exact div_pos hσ (Real.sqrt_pos.mpr (one_minus_rho_sq_pos hρ))

theorem zstep_pos {p : parameters} (hnz : 2 ≤ p.nz) (hσ : 0 < p.sigma)
    (hρ : |p.rho| < 1) (hlam : 0 < p.lambda) : 0 < zstep p := by
  rw [zstep, zmax, zmin]
  have hsz := sigma_z_pos hσ hρ
  have hn : (0:ℝ) < (p.nz:ℝ) - 1 := by
    have h2 : (2:ℝ) ≤ (p.nz:ℝ) := by exact_mod_cast hnz
    linarith
  apply div_pos _ hn
  nlinarith

theorem loArg_le_upArg {p : parameters} (hnz : 2 ≤ p.nz) (hσ : 0 < p.sigma)
    (hρ : |p.rho| < 1) (hlam : 0 < p.lambda) (i j : ℕ) :
    loArg p i j ≤ upArg p i j := by
  unfold loArg upArg
  have hz := zstep_pos hnz hσ hρ hlam
  have h : 0 ≤ 0.5 * zstep p / p.sigma := by positivity
  linarith

theorem loArg_succ (p : parameters) (i j : ℕ) :
    loArg p i (j + 1) = upArg p i j := by
  unfold loArg upArg
  push_cast
  ring

theorem Pentry_top (p : parameters) (hnz : 2 ≤ p.nz) (i : ℕ) :
    Pentry p i (p.nz - 1) = 1 - normcdf (upArg p i (p.nz - 2)) := by
  rw [Pentry, if_neg (by omega), if_pos rfl]
  have hsum : ∑ k ∈ Finset.range (p.nz - 2), pint p i (k + 1)
      = normcdf (upArg p i (p.nz - 2)) - normcdf (upArg p i 0) := by
    calc ∑ k ∈ Finset.range (p.nz - 2), pint p i (k + 1)
        = ∑ k ∈ Finset.range (p.nz - 2),
            ((fun m => normcdf (upArg p i m)) (k + 1)
              - (fun m => normcdf (upArg p i m)) k) :=
          Finset.sum_congr rfl (fun k _ => by simp only [pint, loArg_succ])
      _ = _ := Finset.sum_range_sub (fun m => normcdf (upArg p i m)) (p.nz - 2)
  rw [hsum]
  ring

theorem Pentry_bottom (p : parameters) (i : ℕ) :
    Pentry p i 0 = normcdf (upArg p i 0) := by
  rw [Pentry, if_pos rfl]

theorem Pentry_interior (p : parameters) (hnz : 3 ≤ p.nz) (i j : ℕ)
    (hj1 : 1 ≤ j) (hj2 : j ≤ p.nz - 2) :
    Pentry p i j = pint p i j := by
  rw [Pentry, if_neg (by omega), if_neg (by omega)]

theorem Pentry_row_sum_aux (p : parameters) (m : ℕ) (h : p.nz = m + 3)
    (i : ℕ) : ∑ j ∈ Finset.range (m + 3), Pentry p i j = 1 := by
  rw [Finset.sum_range_succ, Finset.sum_range_succ']
  have htop : Pentry p i (m + 2)
      = 1 - normcdf (upArg p i 0)
        - ∑ k ∈ Finset.range (m + 1), pint p i (k + 1) := by
    rw [Pentry, if_neg (by omega), if_pos (by omega), h,
      show m + 3 - 2 = m + 1 from by omega]
  have hint : ∀ k ∈ Finset.range (m + 1), Pentry p i (k + 1) = pint p i (k + 1) :=
    fun k hk => Pentry_interior p (by omega) i (k + 1) (by omega)
      (by have := Finset.mem_range.mp hk; omega)
  rw [htop, Pentry_bottom, Finset.sum_congr rfl hint]
  ring

theorem Pentry_row_sum (p : parameters) (hnz : 3 ≤ p.nz) (i : ℕ) :
    ∑ j ∈ Finset.range p.nz, Pentry p i j = 1 := by
  obtain ⟨m, hm⟩ : ∃ m, p.nz = m + 3 := ⟨p.nz - 3, by omega⟩
  rw [hm]
  exact Pentry_row_sum_aux p m hm i

/-! ## Symmetry helpers (mu = 0) -/

theorem zmin_add_zmax (p : parameters) (hmu : p.mu = 0) :
    zmin p + zmax p = 0 := by
  unfold zmin zmax mu_z
  rw [hmu]
  ring

theorem zstep_mul_card (p : parameters) (hnz : 2 ≤ p.nz) :
    zstep p * ((p.nz:ℝ) - 1) = zmax p - zmin p := by
  rw [zstep]
  have hne : ((p.nz:ℝ) - 1) ≠ 0 := by
    have h2 : (2:ℝ) ≤ (p.nz:ℝ) := by exact_mod_cast hnz
    linarith
  field_simp

theorem logZ_rev (p : parameters) (hmu : p.mu = 0) (hnz : 2 ≤ p.nz)
    (i : ℕ) (hi : i < p.nz) :
    zmin p + zstep p * ((p.nz - 1 - i : ℕ):ℝ) = -(zmin p + zstep p * (i:ℝ)) := by
  have hcast : ((p.nz - 1 - i : ℕ):ℝ) = (p.nz:ℝ) - 1 - (i:ℝ) := by
    rw [Nat.cast_sub (by omega), Nat.cast_sub (by omega)]
    norm_num
  rw [hcast]
  have hexp : zstep p * ((p.nz:ℝ) - 1 - (i:ℝ))
      = zstep p * ((p.nz:ℝ) - 1) - zstep p * (i:ℝ) := by ring
  rw [hexp, zstep_mul_card p hnz]
  have hsum := zmin_add_zmax p hmu
  linarith

theorem upArg_rev (p : parameters) (hmu : p.mu = 0) (hnz : 2 ≤ p.nz)
    (i j : ℕ) (hi : i < p.nz) (hj : j < p.nz) :
    upArg p (p.nz - 1 - i) (p.nz - 1 - j) = - loArg p i j := by
  unfold upArg loArg
  rw [logZ_rev p hmu hnz i hi, logZ_rev p hmu hnz j hj, hmu]
  ring

theorem loArg_rev (p : parameters) (hmu : p.mu = 0) (hnz : 2 ≤ p.nz)
    (i j : ℕ) (hi : i < p.nz) (hj : j < p.nz) :
    loArg p (p.nz - 1 - i) (p.nz - 1 - j) = - upArg p i j := by
  unfold upArg loArg
  rw [logZ_rev p hmu hnz i hi, logZ_rev p hmu hnz j hj, hmu]
  ring

theorem Pentry_rev (p : parameters) (hmu : p.mu = 0) (hnz : 3 ≤ p.nz)
    (i j : ℕ) (hi : i < p.nz) (hj : j < p.nz) :
    Pentry p i j = Pentry p (p.nz - 1 - i) (p.nz - 1 - j) := by
  rcases Nat.eq_zero_or_pos j with rfl | hjpos
  · rw [Nat.sub_zero, Pentry_top p (by omega) (p.nz - 1 - i), Pentry_bottom]
    have harg : upArg p (p.nz - 1 - i) (p.nz - 2) = - upArg p i 0 := by
      have h := upArg_rev p hmu (by omega) i 1 hi (by omega)
      rw [show p.nz - 1 - 1 = p.nz - 2 from by omega] at h
      rw [h]
      have h2 := loArg_succ p i 0
      norm_num at h2
      rw [h2]
    rw [harg, normcdf_neg]
    ring
  rcases eq_or_ne j (p.nz - 1) with rfl | hne
  · rw [show p.nz - 1 - (p.nz - 1) = 0 from by omega,
      Pentry_top p (by omega) i, Pentry_bottom]
    have harg : upArg p (p.nz - 1 - i) 0 = - upArg p i (p.nz - 2) := by
      have h := upArg_rev p hmu (by omega) i (p.nz - 1) hi (by omega)
      rw [show p.nz - 1 - (p.nz - 1) = 0 from by omega] at h
      rw [h]
      have h2 := loArg_succ p i (p.nz - 2)
      rw [show p.nz - 2 + 1 = p.nz - 1 from by omega] at h2
      rw [h2]
    rw [harg, normcdf_neg]
  · rw [Pentry_interior p hnz i j hjpos (by omega),
      Pentry_interior p hnz (p.nz - 1 - i) (p.nz - 1 - j) (by omega) (by omega)]
    unfold pint
    rw [upArg_rev p hmu (by omega) i j hi hj,
      loArg_rev p hmu (by omega) i j hi hj, normcdf_neg, normcdf_neg]
    ring

/-- With `rho = 0` every origin state yields the same closed-form row. -/
theorem Pentry_rho_zero (p : parameters) (hρ0 : p.rho = 0) (i i' j : ℕ) :
    Pentry p i j = Pentry p i' j := by
  simp [Pentry, pint, upArg, loArg, hρ0]

/-! ## The parallel reformulation agrees with the closed form -/

theorem parMatrix_eq_Pentry_aux (p : parameters) (m : ℕ) (h : p.nz = m + 3)
    (i j : ℕ) (hj : j < p.nz) : parMatrix p i j = Pentry p i j := by
  rcases eq_or_ne j (p.nz - 1) with rfl | hne
  · rw [parMatrix, if_pos rfl, Pentry_top p (by omega) i]
    have hsum : ∑ k ∈ Finset.range (p.nz - 1), parEntry p i k
        = normcdf (upArg p i (p.nz - 2)) := by
      rw [h, show m + 3 - 1 = (m + 1) + 1 from by omega, Finset.sum_range_succ']
      have hint : ∀ k ∈ Finset.range (m + 1), parEntry p i (k + 1)
          = (fun q => normcdf (upArg p i q)) (k + 1)
            - (fun q => normcdf (upArg p i q)) k := by
        intro k hk
        rw [parEntry, if_neg (by omega)]
        simp only [loArg_succ]
      rw [Finset.sum_congr rfl hint,
        Finset.sum_range_sub (fun q => normcdf (upArg p i q)) (m + 1),
        parEntry, if_pos rfl, show m + 3 - 2 = m + 1 from by omega]
      ring
    rw [hsum]
  · rw [parMatrix, if_neg hne]
    rcases Nat.eq_zero_or_pos j with rfl | hjpos
    · rw [parEntry, if_pos rfl, Pentry_bottom]
    · rw [parEntry, if_neg (by omega),
        Pentry_interior p (by omega) i j hjpos (by omega)]
      rw [pint]

theorem parMatrix_eq_Pentry (p : parameters) (hnz : 3 ≤ p.nz)
    (i j : ℕ) (hj : j < p.nz) : parMatrix p i j = Pentry p i j := by
  obtain ⟨m, hm⟩ : ∃ m, p.nz = m + 3 := ⟨p.nz - 3, by omega⟩
  exact parMatrix_eq_Pentry_aux p m hm i j hj

/-! ## The claims -/

/-- C1: for every valid parameter set (`nz ≥ 3`, `sigma > 0`, `|rho| < 1`,
`lambda > 0`) and every origin state `i`, the sum over `j` of
`P[i + nz*j]` produced by `ar1` equals 1 exactly, in exact real
arithmetic, by the residual-top-bin construction. -/
theorem ar1_row_sum_one (p : parameters) (Z0 P0 : ℕ → ℝ)
    (hnz : 3 ≤ p.nz) (hσ : 0 < p.sigma) (hρ : |p.rho| < 1)
    (hlam : 0 < p.lambda) (i : ℕ) (hi : i < p.nz) :
    ∑ j ∈ Finset.range p.nz, (ar1 p Z0 P0).2 (i + p.nz * j) = 1 := by
  have hP : ∀ j ∈ Finset.range p.nz,
      (ar1 p Z0 P0).2 (i + p.nz * j) = Pentry p i j :=
    fun j hj => ar1_P_closed p Z0 P0 (by omega) i j hi (Finset.mem_range.mp hj)
  rw [Finset.sum_congr rfl hP]
  exact Pentry_row_sum p hnz i

/-- Witness for C1 at the concrete scenario `nz=3, mu=0, rho=0, sigma=1,
lambda=3` and origin state `i = 0`. -/
theorem ar1_row_sum_one_witness :
    3 ≤ p₀.nz ∧ 0 < p₀.sigma ∧ |p₀.rho| < 1 ∧ 0 < p₀.lambda ∧ 0 < p₀.nz ∧
      ∑ j ∈ Finset.range p₀.nz, (ar1 p₀ z₀ z₀).2 (0 + p₀.nz * j) = 1 :=
  ⟨by norm_num [p₀], by norm_num [p₀], by norm_num [p₀], by norm_num [p₀],
    by norm_num [p₀],
    ar1_row_sum_one p₀ z₀ z₀ (by norm_num [p₀]) (by norm_num [p₀])
      (by norm_num [p₀]) (by norm_num [p₀]) 0 (by norm_num [p₀])⟩

/-- C2: for every valid parameter set and `i < nz`, `ar1` sets
`Z[i] = exp(zmin + zstep*i)`, where the grid scalars satisfy exactly the
formulas `sigma_z = sigma/sqrt(1-rho²)`, `mu_z = mu/(1-rho)`,
`zmin = mu_z - lambda*sigma_z`, `zmax = mu_z + lambda*sigma_z` and
`zstep = (zmax - zmin)/(nz - 1)`. -/
theorem ar1_grid_formula (p : parameters) (Z0 P0 : ℕ → ℝ)
    (hnz : 3 ≤ p.nz) (hσ : 0 < p.sigma) (hρ : |p.rho| < 1)
    (hlam : 0 < p.lambda) (i : ℕ) (hi : i < p.nz) :
    (ar1 p Z0 P0).1 i = Real.exp (zmin p + zstep p * (i:ℝ))
    ∧ sigma_z p = p.sigma / Real.sqrt (1 - p.rho ^ 2)
    ∧ mu_z p = p.mu / (1 - p.rho)
    ∧ zmin p = mu_z p - p.lambda * sigma_z p
    ∧ zmax p = mu_z p + p.lambda * sigma_z p
    ∧ zstep p = (zmax p - zmin p) / ((p.nz:ℝ) - 1) := by
  refine ⟨?_, sigma_z_eq p, rfl, rfl, rfl, rfl⟩
  rw [ar1_Z_apply, if_pos hi]
  rfl

/-- Witness for C2 at `p₀` and `i = 1`. -/
theorem ar1_grid_formula_witness :
    3 ≤ p₀.nz ∧ 0 < p₀.sigma ∧ |p₀.rho| < 1 ∧ 0 < p₀.lambda ∧ 1 < p₀.nz ∧
      ((ar1 p₀ z₀ z₀).1 1 = Real.exp (zmin p₀ + zstep p₀ * ((1:ℕ):ℝ))
        ∧ sigma_z p₀ = p₀.sigma / Real.sqrt (1 - p₀.rho ^ 2)
        ∧ mu_z p₀ = p₀.mu / (1 - p₀.rho)
        ∧ zmin p₀ = mu_z p₀ - p₀.lambda * sigma_z p₀
        ∧ zmax p₀ = mu_z p₀ + p₀.lambda * sigma_z p₀
        ∧ zstep p₀ = (zmax p₀ - zmin p₀) / ((p₀.nz:ℝ) - 1)) :=
  ⟨by norm_num [p₀], by norm_num [p₀], by norm_num [p₀], by norm_num [p₀],
    by norm_num [p₀],
    ar1_grid_formula p₀ z₀ z₀ (by norm_num [p₀]) (by norm_num [p₀])
      (by norm_num [p₀]) (by norm_num [p₀]) 1 (by norm_num [p₀])⟩

/-- C3: for every valid parameter set, origin `i < nz` and interior
destination `j = 1..nz-2`, the entry `P[i + nz*j]` equals the difference
of the two standard-normal CDF evaluations at the upper and lower bin-edge
arguments built from `log Z[j]` and `log Z[i]`, and the top bin holds
`1 - P[i,0]` minus the sum of all interior entries (the running
subtraction). -/
theorem ar1_interior_formula (p : parameters) (Z0 P0 : ℕ → ℝ)
    (hnz : 3 ≤ p.nz) (hσ : 0 < p.sigma) (hρ : |p.rho| < 1)
    (hlam : 0 < p.lambda) (i j : ℕ) (hi : i < p.nz)
    (hj1 : 1 ≤ j) (hj2 : j ≤ p.nz - 2) :
    (ar1 p Z0 P0).2 (i + p.nz * j)
      = normcdf ((Real.log ((ar1 p Z0 P0).1 j) - p.mu
            - p.rho * Real.log ((ar1 p Z0 P0).1 i)) / p.sigma
          + 0.5 * zstep p / p.sigma)
        - normcdf ((Real.log ((ar1 p Z0 P0).1 j) - p.mu
            - p.rho * Real.log ((ar1 p Z0 P0).1 i)) / p.sigma
          - 0.5 * zstep p / p.sigma)
    ∧ (ar1 p Z0 P0).2 (i + p.nz * (p.nz - 1))
        = (1 - (ar1 p Z0 P0).2 (i + p.nz * 0))
          - ∑ k ∈ Finset.Icc 1 (p.nz - 2), (ar1 p Z0 P0).2 (i + p.nz * k) := by
  have hZi : Real.log ((ar1 p Z0 P0).1 i) = zmin p + zstep p * (i:ℝ) := by
    rw [ar1_Z_apply, if_pos hi, Zval, Real.log_exp]
  have hZj : Real.log ((ar1 p Z0 P0).1 j) = zmin p + zstep p * (j:ℝ) := by
    rw [ar1_Z_apply, if_pos (by omega), Zval, Real.log_exp]
  constructor
  · rw [ar1_P_closed p Z0 P0 (by omega) i j hi (by omega),
      Pentry_interior p hnz i j hj1 hj2, pint, hZi, hZj, upArg, loArg]
  · have hIcc : ∀ k ∈ Finset.Icc 1 (p.nz - 2),
        (ar1 p Z0 P0).2 (i + p.nz * k) = pint p i k := by
      intro k hk
      have hk' := Finset.mem_Icc.mp hk
      rw [ar1_P_closed p Z0 P0 (by omega) i k hi (by omega),
        Pentry_interior p hnz i k hk'.1 hk'.2]
    rw [ar1_P_closed p Z0 P0 (by omega) i (p.nz - 1) hi (by omega),
      ar1_P_closed p Z0 P0 (by omega) i 0 hi (by omega),
      Finset.sum_congr rfl hIcc, Pentry_bottom]
    have hsum : ∑ k ∈ Finset.Icc 1 (p.nz - 2), pint p i k
        = ∑ k ∈ Finset.range (p.nz - 2), pint p i (k + 1) := by
      rw [← Nat.Ico_succ_right, Finset.sum_Ico_eq_sum_range,
        show p.nz - 2 + 1 - 1 = p.nz - 2 from by omega]
      exact Finset.sum_congr rfl (fun k _ => by rw [Nat.add_comm 1 k])
    rw [hsum, Pentry, if_neg (by omega), if_pos rfl]

/-- Witness for C3 at `p₀`, `i = 0`, `j = 1`. -/
theorem ar1_interior_formula_witness :
    3 ≤ p₀.nz ∧ 0 < p₀.sigma ∧ |p₀.rho| < 1 ∧ 0 < p₀.lambda ∧
      ((ar1 p₀ z₀ z₀).2 (0 + p₀.nz * 1)
        = normcdf ((Real.log ((ar1 p₀ z₀ z₀).1 1) - p₀.mu
              - p₀.rho * Real.log ((ar1 p₀ z₀ z₀).1 0)) / p₀.sigma
            + 0.5 * zstep p₀ / p₀.sigma)
          - normcdf ((Real.log ((ar1 p₀ z₀ z₀).1 1) - p₀.mu
              - p₀.rho * Real.log ((ar1 p₀ z₀ z₀).1 0)) / p₀.sigma
            - 0.5 * zstep p₀ / p₀.sigma)
      ∧ (ar1 p₀ z₀ z₀).2 (0 + p₀.nz * (p₀.nz - 1))
          = (1 - (ar1 p₀ z₀ z₀).2 (0 + p₀.nz * 0))
            - ∑ k ∈ Finset.Icc 1 (p₀.nz - 2), (ar1 p₀ z₀ z₀).2 (0 + p₀.nz * k)) :=
  ⟨by norm_num [p₀], by norm_num [p₀], by norm_num [p₀], by norm_num [p₀],
    ar1_interior_formula p₀ z₀ z₀ (by norm_num [p₀]) (by norm_num [p₀])
      (by norm_num [p₀]) (by norm_num [p₀]) 0 1 (by norm_num [p₀])
      (by norm_num) (by norm_num [p₀])⟩

/-- C4: for every valid parameter set and origin `i`, the bottom bin is
`P[i + nz*0] = 0.5 + 0.5*erf(arg/√2)` with
`arg = (zmin - mu - rho*log Z[i])/sigma + 0.5*zstep/sigma`, and the top
bin is initialized to `1 - P[i + nz*0]` before the interior-bin loop runs
(stated on `rowInit`, the embedding of the two statements preceding the
interior loop). -/
theorem ar1_bottom_top_formula (p : parameters) (Z0 P0 : ℕ → ℝ)
    (hnz : 3 ≤ p.nz) (hσ : 0 < p.sigma) (hρ : |p.rho| < 1)
    (hlam : 0 < p.lambda) (i : ℕ) (hi : i < p.nz) :
    (ar1 p Z0 P0).2 (i + p.nz * 0)
      = 0.5 + 0.5 * erf (((zmin p - p.mu
          - p.rho * Real.log ((ar1 p Z0 P0).1 i)) / p.sigma
          + 0.5 * zstep p / p.sigma) / Real.sqrt 2)
    ∧ ∀ s : ArState, (rowInit p i s).P (i + p.nz * (p.nz - 1))
        = 1 - (rowInit p i s).P (i + p.nz * 0) := by
  constructor
  · have hZi : Real.log ((ar1 p Z0 P0).1 i) = zmin p + zstep p * (i:ℝ) := by
      rw [ar1_Z_apply, if_pos hi, Zval, Real.log_exp]
    rw [ar1_P_closed p Z0 P0 (by omega) i 0 hi (by omega), Pentry_bottom,
      hZi, normcdf, upArg]
    norm_num
  · intro s
    exact rowInit_top_complement p i s (by omega)

/-- Witness for C4 at `p₀` and `i = 2`. -/
theorem ar1_bottom_top_formula_witness :
    3 ≤ p₀.nz ∧ 0 < p₀.sigma ∧ |p₀.rho| < 1 ∧ 0 < p₀.lambda ∧
      ((ar1 p₀ z₀ z₀).2 (2 + p₀.nz * 0)
        = 0.5 + 0.5 * erf (((zmin p₀ - p₀.mu
            - p₀.rho * Real.log ((ar1 p₀ z₀ z₀).1 2)) / p₀.sigma
            + 0.5 * zstep p₀ / p₀.sigma) / Real.sqrt 2)
      ∧ ∀ s : ArState, (rowInit p₀ 2 s).P (2 + p₀.nz * (p₀.nz - 1))
          = 1 - (rowInit p₀ 2 s).P (2 + p₀.nz * 0)) :=
  ⟨by norm_num [p₀], by norm_num [p₀], by norm_num [p₀], by norm_num [p₀],
    ar1_bottom_top_formula p₀ z₀ z₀ (by norm_num [p₀]) (by norm_num [p₀])
      (by norm_num [p₀]) (by norm_num [p₀]) 2 (by norm_num [p₀])⟩

/-- C5: for every valid parameter set, the grid `Z` produced by `ar1`
consists of `nz` positive values and is strictly increasing. -/
theorem ar1_grid_pos_strictMono (p : parameters) (Z0 P0 : ℕ → ℝ)
    (hnz : 3 ≤ p.nz) (hσ : 0 < p.sigma) (hρ : |p.rho| < 1)
    (hlam : 0 < p.lambda) :
    (∀ i, i < p.nz → 0 < (ar1 p Z0 P0).1 i)
    ∧ ∀ i, i + 1 < p.nz → (ar1 p Z0 P0).1 i < (ar1 p Z0 P0).1 (i + 1) := by
  constructor
  · intro i hi
    rw [ar1_Z_apply, if_pos hi]
    exact Real.exp_pos _
  · intro i hi
    rw [ar1_Z_apply, if_pos (by omega), ar1_Z_apply, if_pos hi]
    rw [Zval, Zval, Real.exp_lt_exp]
    have hz := zstep_pos (by omega) hσ hρ hlam
    push_cast
    nlinarith

/-- Witness for C5 at `p₀`: positivity at index 0 and strict growth from
index 0 to 1. -/
theorem ar1_grid_pos_strictMono_witness :
    3 ≤ p₀.nz ∧ 0 < p₀.sigma ∧ |p₀.rho| < 1 ∧ 0 < p₀.lambda ∧
      0 < (ar1 p₀ z₀ z₀).1 0 ∧ (ar1 p₀ z₀ z₀).1 0 < (ar1 p₀ z₀ z₀).1 1 :=
  ⟨by norm_num [p₀], by norm_num [p₀], by norm_num [p₀], by norm_num [p₀],
    (ar1_grid_pos_strictMono p₀ z₀ z₀ (by norm_num [p₀]) (by norm_num [p₀])
      (by norm_num [p₀]) (by norm_num [p₀])).1 0 (by norm_num [p₀]),
    (ar1_grid_pos_strictMono p₀ z₀ z₀ (by norm_num [p₀]) (by norm_num [p₀])
      (by norm_num [p₀]) (by norm_num [p₀])).2 0 (by norm_num [p₀])⟩

/-- C6: for every valid parameter set and all `i, j < nz`, the entry
`P[i + nz*j]` produced by `ar1` lies in `[0, 1]` in exact real arithmetic,
including the residual top bin. -/
theorem ar1_entries_unit_interval (p : parameters) (Z0 P0 : ℕ → ℝ)
    (hnz : 3 ≤ p.nz) (hσ : 0 < p.sigma) (hρ : |p.rho| < 1)
    (hlam : 0 < p.lambda) (i j : ℕ) (hi : i < p.nz) (hj : j < p.nz) :
    0 ≤ (ar1 p Z0 P0).2 (i + p.nz * j)
    ∧ (ar1 p Z0 P0).2 (i + p.nz * j) ≤ 1 := by
  rw [ar1_P_closed p Z0 P0 (by omega) i j hi hj]
  rcases Nat.eq_zero_or_pos j with rfl | hjpos
  · rw [Pentry_bottom]
    exact ⟨normcdf_nonneg _, normcdf_le_one _⟩
  rcases eq_or_ne j (p.nz - 1) with rfl | hne
  · rw [Pentry_top p (by omega) i]
    have h1 := normcdf_nonneg (upArg p i (p.nz - 2))
    have h2 := normcdf_le_one (upArg p i (p.nz - 2))
    constructor <;> linarith
  · rw [Pentry_interior p hnz i j hjpos (by omega), pint]
    have hm := normcdf_monotone (loArg_le_upArg (by omega) hσ hρ hlam i j)
    have h1 := normcdf_nonneg (loArg p i j)
    have h2 := normcdf_le_one (upArg p i j)
    constructor <;> linarith

/-- Witness for C6 at `p₀`, `i = 1`, `j = 2` (the residual top bin). -/
theorem ar1_entries_unit_interval_witness :
    3 ≤ p₀.nz ∧ 0 < p₀.sigma ∧ |p₀.rho| < 1 ∧ 0 < p₀.lambda ∧
      0 ≤ (ar1 p₀ z₀ z₀).2 (1 + p₀.nz * 2) ∧ (ar1 p₀ z₀ z₀).2 (1 + p₀.nz * 2) ≤ 1 :=
  ⟨by norm_num [p₀], by norm_num [p₀], by norm_num [p₀], by norm_num [p₀],
    (ar1_entries_unit_interval p₀ z₀ z₀ (by norm_num [p₀]) (by norm_num [p₀])
      (by norm_num [p₀]) (by norm_num [p₀]) 1 2 (by norm_num [p₀])
      (by norm_num [p₀])).1,
    (ar1_entries_unit_interval p₀ z₀ z₀ (by norm_num [p₀]) (by norm_num [p₀])
      (by norm_num [p₀]) (by norm_num [p₀]) 1 2 (by norm_num [p₀])
      (by norm_num [p₀])).2⟩

/-- C7: computing each interior entry independently via the CDF-difference
formula and deriving the top bin by a per-row reduction (`parMatrix`,
modelled from the spec) yields, in exact real arithmetic, the same matrix
as the running-subtraction formulation of the reference `ar1`. -/
theorem ar1_parallel_refines (p : parameters) (Z0 P0 : ℕ → ℝ)
    (hnz : 3 ≤ p.nz) (hσ : 0 < p.sigma) (hρ : |p.rho| < 1)
    (hlam : 0 < p.lambda) (i j : ℕ) (hi : i < p.nz) (hj : j < p.nz) :
    parMatrix p i j = (ar1 p Z0 P0).2 (i + p.nz * j) := by
  rw [ar1_P_closed p Z0 P0 (by omega) i j hi hj]
  exact parMatrix_eq_Pentry p hnz i j hj

/-- Witness for C7 at `p₀`, `i = 0`, `j = 2`. -/
theorem ar1_parallel_refines_witness :
    3 ≤ p₀.nz ∧ 0 < p₀.sigma ∧ |p₀.rho| < 1 ∧ 0 < p₀.lambda ∧
      parMatrix p₀ 0 2 = (ar1 p₀ z₀ z₀).2 (0 + p₀.nz * 2) :=
  ⟨by norm_num [p₀], by norm_num [p₀], by norm_num [p₀], by norm_num [p₀],
    ar1_parallel_refines p₀ z₀ z₀ (by norm_num [p₀]) (by norm_num [p₀])
      (by norm_num [p₀]) (by norm_num [p₀]) 0 2 (by norm_num [p₀])
      (by norm_num [p₀])⟩

/-- C8: with `mu = 0` the grid is symmetric in log-space around 0,
`log Z[i] = -log Z[nz-1-i]`, and the transition matrix is symmetric under
simultaneous row/column reversal, `P[i + nz*j] = P[(nz-1-i) + nz*(nz-1-j)]`,
in exact real arithmetic. -/
theorem ar1_symmetry (p : parameters) (Z0 P0 : ℕ → ℝ)
    (hnz : 3 ≤ p.nz) (hσ : 0 < p.sigma) (hρ : |p.rho| < 1)
    (hlam : 0 < p.lambda) (hmu : p.mu = 0) :
    (∀ i, i < p.nz → Real.log ((ar1 p Z0 P0).1 i)
      = - Real.log ((ar1 p Z0 P0).1 (p.nz - 1 - i)))
    ∧ ∀ i j, i < p.nz → j < p.nz →
        (ar1 p Z0 P0).2 (i + p.nz * j)
          = (ar1 p Z0 P0).2 ((p.nz - 1 - i) + p.nz * (p.nz - 1 - j)) := by
  constructor
  · intro i hi
    rw [ar1_Z_apply, if_pos hi, ar1_Z_apply, if_pos (by omega),
      Zval, Zval, Real.log_exp, Real.log_exp,
      logZ_rev p hmu (by omega) i hi]
    ring
  · intro i j hi hj
    rw [ar1_P_closed p Z0 P0 (by omega) i j hi hj,
      ar1_P_closed p Z0 P0 (by omega) (p.nz - 1 - i) (p.nz - 1 - j)
        (by omega) (by omega)]
    exact Pentry_rev p hmu hnz i j hi hj

/-- Witness for C8 at `p₀` (which has `mu = 0`): grid antisymmetry at
`i = 0` and matrix symmetry at `i = 0, j = 1`. -/
theorem ar1_symmetry_witness :
    3 ≤ p₀.nz ∧ 0 < p₀.sigma ∧ |p₀.rho| < 1 ∧ 0 < p₀.lambda ∧ p₀.mu = 0 ∧
      Real.log ((ar1 p₀ z₀ z₀).1 0)
        = - Real.log ((ar1 p₀ z₀ z₀).1 (p₀.nz - 1 - 0)) ∧
      (ar1 p₀ z₀ z₀).2 (0 + p₀.nz * 1)
        = (ar1 p₀ z₀ z₀).2 ((p₀.nz - 1 - 0) + p₀.nz * (p₀.nz - 1 - 1)) :=
  ⟨by norm_num [p₀], by norm_num [p₀], by norm_num [p₀], by norm_num [p₀],
    by norm_num [p₀],
    (ar1_symmetry p₀ z₀ z₀ (by norm_num [p₀]) (by norm_num [p₀])
      (by norm_num [p₀]) (by norm_num [p₀]) (by norm_num [p₀])).1 0
      (by norm_num [p₀]),
    (ar1_symmetry p₀ z₀ z₀ (by norm_num [p₀]) (by norm_num [p₀])
      (by norm_num [p₀]) (by norm_num [p₀]) (by norm_num [p₀])).2 0 1
      (by norm_num [p₀]) (by norm_num [p₀])⟩

/-- C9: with `rho = 0` every row of the transition matrix produced by
`ar1` is identical: the entry at destination `j` does not depend on the
origin state. -/
theorem ar1_rows_identical_rho_zero (p : parameters) (Z0 P0 : ℕ → ℝ)
    (hnz : 3 ≤ p.nz) (hσ : 0 < p.sigma) (hρ0 : p.rho = 0)
    (hlam : 0 < p.lambda) (i i' j : ℕ) (hi : i < p.nz) (hi' : i' < p.nz)
    (hj : j < p.nz) :
    (ar1 p Z0 P0).2 (i + p.nz * j) = (ar1 p Z0 P0).2 (i' + p.nz * j) := by
  rw [ar1_P_closed p Z0 P0 (by omega) i j hi hj,
    ar1_P_closed p Z0 P0 (by omega) i' j hi' hj]
  exact Pentry_rho_zero p hρ0 i i' j

/-- Witness for C9 at the spec's scenario `nz=3, mu=0, rho=0, sigma=1,
lambda=3`: rows 0 and 2 agree at destination 1. -/
theorem ar1_rows_identical_rho_zero_witness :
    3 ≤ p₀.nz ∧ 0 < p₀.sigma ∧ p₀.rho = 0 ∧ 0 < p₀.lambda ∧
      (ar1 p₀ z₀ z₀).2 (0 + p₀.nz * 1) = (ar1 p₀ z₀ z₀).2 (2 + p₀.nz * 1) :=
  ⟨by norm_num [p₀], by norm_num [p₀], by norm_num [p₀], by norm_num [p₀],
    ar1_rows_identical_rho_zero p₀ z₀ z₀ (by norm_num [p₀]) (by norm_num [p₀])
      (by norm_num [p₀]) (by norm_num [p₀]) 0 2 1 (by norm_num [p₀])
      (by norm_num [p₀]) (by norm_num [p₀])⟩

/-- C10: `ar1` writes only indices `0..nz-1` of the `Z` container and
`0..nz*nz-1` of the `P` container; every element beyond those ranges of
the caller-supplied containers keeps its prior value.  (In the embedding
the parameters record is passed immutably, so its non-mutation is by
construction.) -/
theorem ar1_frame (p : parameters) (Z0 P0 : ℕ → ℝ) (k : ℕ) :
    (p.nz ≤ k → (ar1 p Z0 P0).1 k = Z0 k)
    ∧ (p.nz * p.nz ≤ k → (ar1 p Z0 P0).2 k = P0 k) :=
  ⟨ar1_Z_frame p Z0 P0 k, ar1_P_frame p Z0 P0 k⟩

/-- Witness for C10 at `p₀` with oversized containers: index 5 of `Z`
(beyond `nz = 3`) and index 11 of `P` (beyond `nz*nz = 9`) are untouched. -/
theorem ar1_frame_witness :
    (ar1 p₀ z₀ z₀).1 5 = z₀ 5 ∧ (ar1 p₀ z₀ z₀).2 11 = z₀ 11 :=
  ⟨(ar1_frame p₀ z₀ z₀ 5).1 (by norm_num [p₀]),
    (ar1_frame p₀ z₀ z₀ 11).2 (by norm_num [p₀])⟩

end VFI
